import Mathlib

/-!
Verification of the GDB JIT compilation interface
(`gdbJITCompilationInterface.c` together with the struct layout from
`gdb_jit_compilation_interface.h`).

The C code maintains a process-global `struct jit_descriptor
__jit_debug_descriptor` and an intrusive doubly linked list of
`struct jit_code_entry` nodes.  We model the C heap as an association
list from addresses (`Nat`) to entry values; a `NULL` pointer is
`Option.none`, a non-null pointer to address `a` is `some a`.  `malloc`
is modelled by a monotone fresh-address counter, so every allocation
returns an address distinct from every live one, exactly as a correct
allocator does.  The no-op notification hook `__jit_debug_register_code`
is modelled by an event trace: each invocation appends the snapshot of
`(action_flag, relevant_entry)` that the debugger would observe at the
breakpoint.
-/

set_option autoImplicit false

namespace GdbJit

/-- `struct jit_code_entry` from `gdb_jit_compilation_interface.h`:
`next_entry`/`prev_entry` are the intrusive links (`none` = `NULL`),
`symfile_addr` is the (abstract) value of the `const char *` buffer
pointer, `symfile_size` the `uint64_t` size. -/
structure jit_code_entry where
  next_entry : Option Nat
  prev_entry : Option Nat
  symfile_addr : Nat
  symfile_size : Nat
deriving DecidableEq, Repr

/-- `struct jit_descriptor` from `gdb_jit_compilation_interface.h`.
`action_flag` is kept as a plain number with the header's fixed encoding
(`JIT_NOACTION = 0`, `JIT_REGISTER = 1`, `JIT_UNREGISTER = 2`; the `.c`
file spells the latter two `JIT_REGISTER_FN`/`JIT_UNREGISTER_FN`, the
standard GDB names for the same values). -/
structure jit_descriptor where
  version : Nat
  action_flag : Nat
  relevant_entry : Option Nat
  first_entry : Option Nat
deriving DecidableEq, Repr

def JIT_NOACTION : Nat := 0
def JIT_REGISTER : Nat := 1
def JIT_UNREGISTER : Nat := 2

/-- The modelled C heap: an association list from addresses to live
`jit_code_entry` values.  An address not in the list is unallocated
(or already freed) memory. -/
abbrev Heap := List (Nat × jit_code_entry)

namespace Heap

/-- Dereference a pointer: the entry stored at address `a`, if live. -/
def find : Heap → Nat → Option jit_code_entry
  | [], _ => none
  | (k, e) :: t, a => if a = k then some e else find t a

/-- The store `p->prev_entry = v` at address `a`. -/
def setPrev : Heap → Nat → Option Nat → Heap
  | [], _, _ => []
  | (k, e) :: t, a, v =>
    if k = a then (k, { e with prev_entry := v }) :: setPrev t a v
    else (k, e) :: setPrev t a v

/-- The store `p->next_entry = v` at address `a`. -/
def setNext : Heap → Nat → Option Nat → Heap
  | [], _, _ => []
  | (k, e) :: t, a, v =>
    if k = a then (k, { e with next_entry := v }) :: setNext t a v
    else (k, e) :: setNext t a v

/-- `free` of the allocation at address `a`. -/
def erase : Heap → Nat → Heap
  | [], _ => []
  | (k, e) :: t, a => if k = a then erase t a else (k, e) :: erase t a

theorem find_cons {k : Nat} {e : jit_code_entry} {t : Heap} {a : Nat} :
    find ((k, e) :: t) a = if a = k then some e else find t a := rfl

theorem find_setPrev (h : Heap) (b : Nat) (v : Option Nat) (a : Nat) :
    find (setPrev h b v) a =
      if a = b then (find h a).map (fun e => { e with prev_entry := v })
      else find h a := by
  induction h with
  | nil => simp [setPrev, find]
  | cons kv t ih =>
    obtain ⟨k, e⟩ := kv
    by_cases hkb : k = b
    · subst hkb
      by_cases hak : a = k
      · subst hak
        simp [setPrev, find_cons]
      · simp [setPrev, find_cons, hak, ih]
    · by_cases hak : a = k
      · subst hak
        simp [setPrev, find_cons, hkb]
      · simp [setPrev, find_cons, hkb, hak, ih]

theorem find_setNext (h : Heap) (b : Nat) (v : Option Nat) (a : Nat) :
    find (setNext h b v) a =
      if a = b then (find h a).map (fun e => { e with next_entry := v })
      else find h a := by
  induction h with
  | nil => simp [setNext, find]
  | cons kv t ih =>
    obtain ⟨k, e⟩ := kv
    by_cases hkb : k = b
    · subst hkb
      by_cases hak : a = k
      · subst hak
        simp [setNext, find_cons]
      · simp [setNext, find_cons, hak, ih]
    · by_cases hak : a = k
      · subst hak
        simp [setNext, find_cons, hkb]
      · simp [setNext, find_cons, hkb, hak, ih]

theorem find_erase (h : Heap) (b : Nat) (a : Nat) :
    find (erase h b) a = if a = b then none else find h a := by
  induction h with
  | nil => simp [erase, find]
  | cons kv t ih =>
    obtain ⟨k, e⟩ := kv
    by_cases hkb : k = b
    · subst hkb
      by_cases hak : a = k
      · subst hak
        simp [erase, find_cons, ih]
      · simp [erase, find_cons, hak, ih]
    · by_cases hak : a = k
      · subst hak
        simp [erase, find_cons, hkb]
      · simp [erase, find_cons, hkb, hak, ih]

theorem find_mem {h : Heap} {a : Nat} {e : jit_code_entry}
    (hf : find h a = some e) : (a, e) ∈ h := by
  induction h with
  | nil => simp [find] at hf
  | cons kv t ih =>
    obtain ⟨k, v⟩ := kv
    rw [find_cons] at hf
    by_cases hak : a = k
    · simp [hak] at hf
      simp [hak, hf]
    · simp [hak] at hf
      exact List.mem_cons_of_mem _ (ih hf)

end Heap

/-- `representsB h front prevp l` checks that starting from the pointer
`front`, whose predecessor in the chain is `prevp`, the heap `h` holds a
well-linked doubly linked list whose nodes are exactly the addresses in
`l`, in order, ending with a `NULL` `next_entry`. -/
def representsB (h : Heap) : Option Nat → Option Nat → List Nat → Bool
  | front, _, [] => front == none
  | front, prevp, a :: rest =>
    front == some a &&
      match h.find a with
      | none => false
      | some e => e.prev_entry == prevp && representsB h e.next_entry (some a) rest

/-- The heap `h` holds, reachable from `front`, the doubly linked list
whose addresses are `l` in order (`prevp` is the `prev_entry` value the
head node must carry; `none` at top level). -/
def represents (h : Heap) (front prevp : Option Nat) (l : List Nat) : Prop :=
  representsB h front prevp l = true

instance (h : Heap) (front prevp : Option Nat) (l : List Nat) :
    Decidable (represents h front prevp l) := by
  unfold represents
  infer_instance

theorem representsB_nil {h : Heap} {front prevp : Option Nat} :
    representsB h front prevp [] = (front == none) := rfl

theorem representsB_cons {h : Heap} {front prevp : Option Nat} {a : Nat}
    {rest : List Nat} :
    representsB h front prevp (a :: rest) =
      (front == some a &&
        match h.find a with
        | none => false
        | some e =>
          e.prev_entry == prevp && representsB h e.next_entry (some a) rest) :=
  rfl

theorem represents_nil {h : Heap} {front prevp : Option Nat} :
    represents h front prevp [] ↔ front = none := by
  simp [represents, representsB_nil]

theorem represents_cons {h : Heap} {front prevp : Option Nat} {a : Nat}
    {rest : List Nat} :
    represents h front prevp (a :: rest) ↔
      front = some a ∧ ∃ e, h.find a = some e ∧ e.prev_entry = prevp ∧
        represents h e.next_entry (some a) rest := by
  unfold represents
  rw [representsB_cons]
  cases hfa : h.find a with
  | none => simp [hfa]
  | some e => simp [hfa, and_assoc]

/-- Nodes mentioned by the represented list are live in the heap. -/
theorem represents_find {h : Heap} {front prevp : Option Nat} {l : List Nat}
    (hr : represents h front prevp l) {x : Nat} (hx : x ∈ l) :
    ∃ e, h.find x = some e := by
  induction l generalizing front prevp with
  | nil => simp at hx
  | cons a rest ih =>
    rw [represents_cons] at hr
    obtain ⟨-, e, hfa, -, hrest⟩ := hr
    rcases List.mem_cons.mp hx with hxa | hxr
    · exact ⟨e, hxa ▸ hfa⟩
    · exact ih hrest hxr

namespace Heap

theorem mem_setPrev {h : Heap} {b : Nat} {v : Option Nat}
    {kv : Nat × jit_code_entry} (hm : kv ∈ setPrev h b v) :
    ∃ e, (kv.1, e) ∈ h := by
  induction h with
  | nil => simp [setPrev] at hm
  | cons kw t ih =>
    obtain ⟨k, e0⟩ := kw
    by_cases hkb : k = b
    · simp only [setPrev, if_pos hkb] at hm
      rcases List.mem_cons.mp hm with h1 | h1
      · subst h1
        exact ⟨e0, List.mem_cons_self _ _⟩
      · obtain ⟨e, he⟩ := ih h1
        exact ⟨e, List.mem_cons_of_mem _ he⟩
    · simp only [setPrev, if_neg hkb] at hm
      rcases List.mem_cons.mp hm with h1 | h1
      · subst h1
        exact ⟨e0, List.mem_cons_self _ _⟩
      · obtain ⟨e, he⟩ := ih h1
        exact ⟨e, List.mem_cons_of_mem _ he⟩

theorem mem_setNext {h : Heap} {b : Nat} {v : Option Nat}
    {kv : Nat × jit_code_entry} (hm : kv ∈ setNext h b v) :
    ∃ e, (kv.1, e) ∈ h := by
  induction h with
  | nil => simp [setNext] at hm
  | cons kw t ih =>
    obtain ⟨k, e0⟩ := kw
    by_cases hkb : k = b
    · simp only [setNext, if_pos hkb] at hm
      rcases List.mem_cons.mp hm with h1 | h1
      · subst h1
        exact ⟨e0, List.mem_cons_self _ _⟩
      · obtain ⟨e, he⟩ := ih h1
        exact ⟨e, List.mem_cons_of_mem _ he⟩
    · simp only [setNext, if_neg hkb] at hm
      rcases List.mem_cons.mp hm with h1 | h1
      · subst h1
        exact ⟨e0, List.mem_cons_self _ _⟩
      · obtain ⟨e, he⟩ := ih h1
        exact ⟨e, List.mem_cons_of_mem _ he⟩

theorem mem_erase {h : Heap} {b : Nat} {kv : Nat × jit_code_entry}
    (hm : kv ∈ erase h b) : kv ∈ h := by
  induction h with
  | nil => simp [erase] at hm
  | cons kw t ih =>
    obtain ⟨k, e0⟩ := kw
    by_cases hkb : k = b
    · simp only [erase, if_pos hkb] at hm
      exact List.mem_cons_of_mem _ (ih hm)
    · simp only [erase, if_neg hkb] at hm
      rcases List.mem_cons.mp hm with h1 | h1
      · simp [h1]
      · exact List.mem_cons_of_mem _ (ih h1)

end Heap

/-- `represents` only looks at the heap located at the listed addresses:
if two heaps agree there, one represents the list iff the other does. -/
theorem represents_congr {h h' : Heap} {front prevp : Option Nat}
    {l : List Nat} (hagree : ∀ x ∈ l, h'.find x = h.find x)
    (hr : represents h front prevp l) : represents h' front prevp l := by
  induction l generalizing front prevp with
  | nil => rw [represents_nil] at hr ⊢; exact hr
  | cons a rest ih =>
    rw [represents_cons] at hr ⊢
    obtain ⟨hfront, e, hfa, hprev, hrest⟩ := hr
    refine ⟨hfront, e, ?_, hprev, ?_⟩
    · rw [hagree a (List.mem_cons_self a rest)]; exact hfa
    · exact ih (fun x hx => hagree x (List.mem_cons_of_mem a hx)) hrest

/-- The whole mutable state of the C translation unit: the live heap
allocations, the `malloc` fresh-address counter, the global
`__jit_debug_descriptor`, and the trace of `__jit_debug_register_code`
invocations (each recording the `(action_flag, relevant_entry)` snapshot
the debugger observes at that breakpoint). -/
structure JitState where
  heap : Heap
  nextAlloc : Nat
  descriptor : jit_descriptor
  events : List (Nat × Option Nat)
deriving DecidableEq, Repr

/-- The static initializer
`struct jit_descriptor __jit_debug_descriptor = { 1, 0, 0, 0 };`
(version `1`, `action_flag = 0` i.e. `JIT_NOACTION`, null
`relevant_entry` and `first_entry`). -/
def init_descriptor : jit_descriptor :=
  { version := 1, action_flag := 0, relevant_entry := none, first_entry := none }

/-- Process start: empty heap, statically initialized descriptor, no
notification yet. -/
def initialState : JitState :=
  { heap := [], nextAlloc := 0, descriptor := init_descriptor, events := [] }

/-- Body of `register_jit_code(addr, size)` once `malloc` has returned
the (non-null) address `a`, statement by statement:
`entry->symfile_addr = addr; entry->symfile_size = size;`
`next_entry = __jit_debug_descriptor.first_entry;`
`entry->prev_entry = NULL; entry->next_entry = next_entry;`
`if (next_entry != NULL) next_entry->prev_entry = entry;`
`__jit_debug_descriptor.action_flag = JIT_REGISTER_FN;`
`__jit_debug_descriptor.first_entry = entry;`
`__jit_debug_descriptor.relevant_entry = entry;`
`__jit_debug_register_code();`
`return entry;` -/
def register_at (addr size a : Nat) (s : JitState) : JitState × Nat :=
  let next_entry := s.descriptor.first_entry
  let entry : jit_code_entry :=
    { next_entry := next_entry, prev_entry := none,
      symfile_addr := addr, symfile_size := size }
  let heap1 : Heap := (a, entry) :: s.heap
  let heap2 : Heap :=
    match next_entry with
    | none => heap1
    | some n => Heap.setPrev heap1 n (some a)
  let d : jit_descriptor :=
    { s.descriptor with
        action_flag := JIT_REGISTER,
        first_entry := some a,
        relevant_entry := some a }
  ({ heap := heap2,
     nextAlloc := max s.nextAlloc (a + 1),
     descriptor := d,
     events := s.events ++ [(d.action_flag, d.relevant_entry)] }, a)

/-- `register_jit_code`: `malloc` yields a fresh address, then the body
runs.  Returns the new state and the returned `struct jit_code_entry *`
handle. -/
def register_jit_code (addr size : Nat) (s : JitState) : JitState × Nat :=
  register_at addr size s.nextAlloc s

/-- Outcome of `register_jit_code` when the `malloc` result is made
explicit. -/
inductive RegResult where
  | ok (s : JitState) (entry : Nat)
  | nullDeref
deriving DecidableEq, Repr

/-- `register_jit_code` with the `malloc` result explicit (`none` models
allocation failure, i.e. `malloc` returning `NULL`).  The C code never
tests the result: the statement immediately after the call,
`entry->symfile_addr = addr;`, stores through the returned pointer, so on
allocation failure the process dereferences `NULL` — undefined behavior,
modelled by `RegResult.nullDeref`.  No error value is ever returned to
the caller. -/
def register_jit_code_alloc (addr size : Nat) (alloc : Option Nat)
    (s : JitState) : RegResult :=
  match alloc with
  | none => RegResult.nullDeref
  | some a =>
    let r := register_at addr size a s
    RegResult.ok r.1 r.2

/-- Outcome of `unregister_jit_code`: normal completion, the
`assert(__jit_debug_descriptor.first_entry == entry)` failing (the
process aborts), or the handle not pointing at a live allocation (the
loads of `entry->prev_entry`/`entry->next_entry` touch freed or foreign
memory — undefined behavior). -/
inductive UnregResult where
  | ok (s : JitState)
  | abort
  | invalidHandle
deriving DecidableEq, Repr

/-- `unregister_jit_code(entry)` up to but not including the final
`free(entry)`, statement by statement:
`prev_entry = entry->prev_entry; next_entry = entry->next_entry;`
`if (next_entry != NULL) next_entry->prev_entry = prev_entry;`
`if (prev_entry != NULL) prev_entry->next_entry = next_entry;`
`else { assert(__jit_debug_descriptor.first_entry == entry);`
`       __jit_debug_descriptor.first_entry = next_entry; }`
`__jit_debug_descriptor.action_flag = JIT_UNREGISTER_FN;`
`__jit_debug_descriptor.relevant_entry = entry;`
`__jit_debug_register_code();`
The returned state is the one the notification hook observes. -/
def unregister_pre_free (a : Nat) (s : JitState) : UnregResult :=
  match s.heap.find a with
  | none => UnregResult.invalidHandle
  | some entry =>
    let prev_entry := entry.prev_entry
    let next_entry := entry.next_entry
    let heap1 : Heap :=
      match next_entry with
      | none => s.heap
      | some n => Heap.setPrev s.heap n prev_entry
    match prev_entry with
    | some p =>
      let heap2 := Heap.setNext heap1 p next_entry
      let d : jit_descriptor :=
        { s.descriptor with
            action_flag := JIT_UNREGISTER, relevant_entry := some a }
      UnregResult.ok
        { s with heap := heap2, descriptor := d,
                 events := s.events ++ [(d.action_flag, d.relevant_entry)] }
    | none =>
      if s.descriptor.first_entry = some a then
        let d : jit_descriptor :=
          { s.descriptor with
              action_flag := JIT_UNREGISTER, relevant_entry := some a,
              first_entry := next_entry }
        UnregResult.ok
          { s with heap := heap1, descriptor := d,
                   events := s.events ++ [(d.action_flag, d.relevant_entry)] }
      else UnregResult.abort

/-- Full `unregister_jit_code(entry)`: the pre-`free` part followed by
the final `free(entry)`. -/
def unregister_jit_code (a : Nat) (s : JitState) : UnregResult :=
  match unregister_pre_free a s with
  | UnregResult.ok s1 => UnregResult.ok { s1 with heap := s1.heap.erase a }
  | r => r

/-- Follow the `next_entry` pointer `k` times starting from `front`
(`none` once the chain ends or dangles). -/
def reachN (h : Heap) : Option Nat → Nat → Option Nat
  | front, 0 => front
  | front, k + 1 =>
    match front with
    | none => none
    | some a =>
      match h.find a with
      | none => none
      | some e => reachN h e.next_entry k

/-- The list invariants of the spec, with `l` the addresses of the list
nodes in order: the heap reachable from `first_entry` is exactly the
well-linked doubly linked list `l` (acyclic and finite since `l` has no
duplicates), and every live allocation was handed out by the allocator
(so the next `malloc` result is fresh). -/
def goodList (s : JitState) (l : List Nat) : Prop :=
  represents s.heap s.descriptor.first_entry none l ∧ l.Nodup ∧
    ∀ kv ∈ s.heap, kv.1 < s.nextAlloc

instance (s : JitState) (l : List Nat) : Decidable (goodList s l) := by
  unfold goodList
  infer_instance

/-- Valid call sequences: starting at process start, any number of
`register_jit_code` calls and of `unregister_jit_code` calls on handles
previously returned by register and not yet unregistered.  `l` collects
the live handles, newest first, which is exactly the current list
order. -/
inductive ValidSeq : JitState → List Nat → Prop where
  | init : ValidSeq initialState []
  | reg (addr size : Nat) {s : JitState} {l : List Nat} :
      ValidSeq s l →
      ValidSeq (register_jit_code addr size s).1
        ((register_jit_code addr size s).2 :: l)
  | unreg {a : Nat} {s s' : JitState} {l : List Nat} :
      ValidSeq s l → a ∈ l →
      unregister_jit_code a s = UnregResult.ok s' →
      ValidSeq s' (l.erase a)

theorem represents_none_nil {h : Heap} {prevp : Option Nat} {l : List Nat}
    (hr : represents h none prevp l) : l = [] := by
  cases l with
  | nil => rfl
  | cons a rest =>
    rw [represents_cons] at hr
    exact absurd hr.1 (by simp)

/-- Every address on a represented list inside a `goodList` state is
below the allocator's fresh counter. -/
theorem goodList_mem_lt {s : JitState} {l : List Nat} (hg : goodList s l) :
    ∀ x ∈ l, x < s.nextAlloc := by
  intro x hx
  obtain ⟨e, he⟩ := represents_find hg.1 hx
  exact hg.2.2 _ (Heap.find_mem he)

/-- `malloc`'s next result is not a live allocation. -/
theorem goodList_fresh {s : JitState} {l : List Nat} (hg : goodList s l) :
    s.heap.find s.nextAlloc = none := by
  cases hfa : s.heap.find s.nextAlloc with
  | none => rfl
  | some e => exact absurd (hg.2.2 _ (Heap.find_mem hfa)) (lt_irrefl _)

/-- Everything `register_jit_code` does, in one statement: the returned
handle is the fresh address; the descriptor fields and the notification
trace are updated for a REGISTER action; the new entry holds exactly the
given buffer and size with `prev_entry = NULL` and `next_entry` = old
head; every other pre-existing entry except the old head is untouched;
the old head gets `prev_entry` pointing at the new entry; and the list
invariants hold for the new list. -/
theorem register_spec (addr size : Nat) (s : JitState) (l : List Nat)
    (hg : goodList s l) :
    (register_jit_code addr size s).2 = s.nextAlloc ∧
    (register_jit_code addr size s).1.nextAlloc = s.nextAlloc + 1 ∧
    (register_jit_code addr size s).1.descriptor =
      { version := s.descriptor.version, action_flag := JIT_REGISTER,
        relevant_entry := some s.nextAlloc,
        first_entry := some s.nextAlloc } ∧
    (register_jit_code addr size s).1.events =
      s.events ++ [(JIT_REGISTER, some s.nextAlloc)] ∧
    s.heap.find s.nextAlloc = none ∧
    (register_jit_code addr size s).1.heap.find s.nextAlloc =
      some { next_entry := s.descriptor.first_entry, prev_entry := none,
             symfile_addr := addr, symfile_size := size } ∧
    (∀ x, x ≠ s.nextAlloc → some x ≠ s.descriptor.first_entry →
      (register_jit_code addr size s).1.heap.find x = s.heap.find x) ∧
    (∀ b eb, s.descriptor.first_entry = some b → s.heap.find b = some eb →
      (register_jit_code addr size s).1.heap.find b =
        some { eb with prev_entry := some s.nextAlloc }) ∧
    goodList (register_jit_code addr size s).1 (s.nextAlloc :: l) := by
  obtain ⟨hrep, hnd, hbound⟩ := hg
  have hmemlt : ∀ x ∈ l, x < s.nextAlloc := goodList_mem_lt ⟨hrep, hnd, hbound⟩
  have hfresh : s.heap.find s.nextAlloc = none :=
    goodList_fresh ⟨hrep, hnd, hbound⟩
  have hheap : (register_jit_code addr size s).1.heap =
      (match s.descriptor.first_entry with
       | none =>
         ((s.nextAlloc,
           { next_entry := s.descriptor.first_entry, prev_entry := none,
             symfile_addr := addr, symfile_size := size }) :: s.heap : Heap)
       | some n =>
         Heap.setPrev
           ((s.nextAlloc,
             { next_entry := s.descriptor.first_entry, prev_entry := none,
               symfile_addr := addr, symfile_size := size }) :: s.heap)
           n (some s.nextAlloc)) := rfl
  have hnext : (register_jit_code addr size s).1.nextAlloc = s.nextAlloc + 1 := by
    show max s.nextAlloc (s.nextAlloc + 1) = s.nextAlloc + 1
    exact Nat.max_eq_right (Nat.le_succ _)
  refine ⟨rfl, hnext, rfl, rfl, hfresh, ?_⟩
  cases hfe : s.descriptor.first_entry with
  | none =>
    rw [hfe] at hheap
    simp only at hheap
    have hl : l = [] := represents_none_nil (by rw [hfe] at hrep; exact hrep)
    subst hl
    refine ⟨?_, ?_, ?_, ?_⟩
    · rw [hheap, Heap.find_cons, if_pos rfl]
    · intro x hxa _
      rw [hheap, Heap.find_cons, if_neg hxa]
    · intro b eb hb
      exact absurd hb (by simp)
    · refine ⟨?_, by simp, ?_⟩
      · rw [represents_cons]
        exact ⟨rfl,
          { next_entry := none, prev_entry := none,
            symfile_addr := addr, symfile_size := size },
          by rw [hheap, Heap.find_cons, if_pos rfl], rfl,
          represents_nil.mpr rfl⟩
      · intro kv hkv
        rw [hheap] at hkv
        rw [hnext]
        rcases List.mem_cons.mp hkv with h1 | h1
        · rw [show kv.1 = s.nextAlloc from congrArg Prod.fst h1]
          exact Nat.lt_succ_self _
        · exact Nat.lt_succ_of_lt (hbound _ h1)
  | some n =>
    rw [hfe] at hheap
    simp only at hheap
    rw [hfe] at hrep
    obtain ⟨rest, hlrest⟩ : ∃ rest, l = n :: rest := by
      cases l with
      | nil =>
        rw [represents_nil] at hrep
        exact absurd hrep (by simp)
      | cons b rest =>
        rw [represents_cons] at hrep
        have hbn : n = b := Option.some_injective _ hrep.1
        exact ⟨rest, by rw [hbn]⟩
    subst hlrest
    rw [represents_cons] at hrep
    obtain ⟨-, en, hfn, hpn, hrest⟩ := hrep
    have hna : n ≠ s.nextAlloc :=
      Nat.ne_of_lt (hmemlt n (List.mem_cons_self _ _))
    have hfind_new : (register_jit_code addr size s).1.heap.find s.nextAlloc =
        some { next_entry := some n, prev_entry := none,
               symfile_addr := addr, symfile_size := size } := by
      rw [hheap, Heap.find_setPrev, if_neg (Ne.symm hna), Heap.find_cons,
        if_pos rfl]
    have hfind_n : (register_jit_code addr size s).1.heap.find n =
        some { en with prev_entry := some s.nextAlloc } := by
      rw [hheap, Heap.find_setPrev, if_pos rfl, Heap.find_cons, if_neg hna,
        hfn]
      rfl
    have hfind_other : ∀ x, x ≠ s.nextAlloc → x ≠ n →
        (register_jit_code addr size s).1.heap.find x = s.heap.find x := by
      intro x hxa hxn
      rw [hheap, Heap.find_setPrev, if_neg hxn, Heap.find_cons, if_neg hxa]
    refine ⟨hfind_new, ?_, ?_, ?_⟩
    · intro x hxa hxf
      refine hfind_other x hxa ?_
      intro hxn
      exact hxf (by rw [hxn])
    · intro b eb hb hfb
      cases Option.some_injective _ hb
      have heq : en = eb := by
        rw [hfn] at hfb
        exact Option.some_injective _ hfb
      subst heq
      exact hfind_n
    · refine ⟨?_, ?_, ?_⟩
      · rw [represents_cons]
        refine ⟨rfl, _, hfind_new, rfl, ?_⟩
        rw [represents_cons]
        refine ⟨rfl, _, hfind_n, rfl, ?_⟩
        refine represents_congr ?_ hrest
        intro x hx
        have hxn : x ≠ n := by
          intro hxn
          rw [hxn] at hx
          exact (List.nodup_cons.mp hnd).1 hx
        have hxa : x ≠ s.nextAlloc :=
          Nat.ne_of_lt (hmemlt x (List.mem_cons_of_mem _ hx))
        exact hfind_other x hxa hxn
      · rw [List.nodup_cons]
        refine ⟨?_, hnd⟩
        intro hmem
        exact absurd (hmemlt _ hmem) (lt_irrefl _)
      · intro kv hkv
        rw [hheap] at hkv
        rw [hnext]
        obtain ⟨e0, he0⟩ := Heap.mem_setPrev hkv
        rcases List.mem_cons.mp he0 with h1 | h1
        · rw [show kv.1 = s.nextAlloc from congrArg Prod.fst h1]
          exact Nat.lt_succ_self _
        · exact Nat.lt_succ_of_lt (hbound (kv.1, e0) h1)

theorem reachN_mem {h : Heap} {front prevp : Option Nat} {l : List Nat}
    (hr : represents h front prevp l) {k : Nat} {x : Nat}
    (hx : reachN h front k = some x) : x ∈ l := by
  induction l generalizing front prevp k with
  | nil =>
    rw [represents_nil] at hr
    subst hr
    cases k <;> simp [reachN] at hx
  | cons a rest ih =>
    rw [represents_cons] at hr
    obtain ⟨hfront, e, hfa, -, hrest⟩ := hr
    subst hfront
    cases k with
    | zero =>
      simp [reachN] at hx
      simp [hx]
    | succ k =>
      simp only [reachN, hfa] at hx
      exact List.mem_cons_of_mem _ (ih hrest hx)

theorem mem_reachN {h : Heap} {front prevp : Option Nat} {l : List Nat}
    (hr : represents h front prevp l) {x : Nat} (hx : x ∈ l) :
    ∃ k, reachN h front k = some x := by
  induction l generalizing front prevp with
  | nil => simp at hx
  | cons a rest ih =>
    rw [represents_cons] at hr
    obtain ⟨hfront, e, hfa, -, hrest⟩ := hr
    subst hfront
    rcases List.mem_cons.mp hx with h1 | h1
    · exact ⟨0, by simp [reachN, h1]⟩
    · obtain ⟨k, hk⟩ := ih hrest h1
      exact ⟨k + 1, by simp only [reachN, hfa]; exact hk⟩

/-- Traversal from the head terminates after exactly `l.length` steps:
the list is finite and acyclic. -/
theorem reachN_length {h : Heap} {front prevp : Option Nat} {l : List Nat}
    (hr : represents h front prevp l) : reachN h front l.length = none := by
  induction l generalizing front prevp with
  | nil =>
    rw [represents_nil] at hr
    subst hr
    rfl
  | cons a rest ih =>
    rw [represents_cons] at hr
    obtain ⟨hfront, e, hfa, -, hrest⟩ := hr
    subst hfront
    simp only [List.length_cons, reachN, hfa]
    exact ih hrest

/-- Mutual consistency, `next` direction: if a node of the list points
at a next node, that node points back with `prev`. -/
theorem represents_next_prev {h : Heap} {front prevp : Option Nat}
    {l : List Nat} (hr : represents h front prevp l) :
    ∀ x ∈ l, ∀ e, h.find x = some e → ∀ y, e.next_entry = some y →
      ∃ ey, h.find y = some ey ∧ ey.prev_entry = some x := by
  induction l generalizing front prevp with
  | nil => intro x hx; simp at hx
  | cons a rest ih =>
    rw [represents_cons] at hr
    obtain ⟨-, ea, hfa, -, hrest⟩ := hr
    intro x hx e hfe y hny
    rcases List.mem_cons.mp hx with h1 | h1
    · subst h1
      have hea : ea = e := by
        rw [hfa] at hfe
        exact Option.some_injective _ hfe
      subst hea
      cases rest with
      | nil =>
        rw [represents_nil] at hrest
        rw [hrest] at hny
        exact absurd hny (by simp)
      | cons b rest' =>
        rw [represents_cons] at hrest
        obtain ⟨hb, ey, hfy, hpy, -⟩ := hrest
        rw [hny] at hb
        cases Option.some_injective _ hb
        exact ⟨ey, hfy, by rw [hpy]⟩
    · exact ih hrest x h1 e hfe y hny

/-- Mutual consistency, `prev` direction: if a node of the list points
at a previous node, that node points forward with `next` (the side
condition supplies the node owning the `prevp` back-pointer; it is
vacuous at top level where `prevp = none`). -/
theorem represents_prev_next {h : Heap} {front prevp : Option Nat}
    {l : List Nat} (hr : represents h front prevp l)
    (hside : ∀ q, prevp = some q →
      ∃ eq0, h.find q = some eq0 ∧ eq0.next_entry = front) :
    ∀ x ∈ l, ∀ e, h.find x = some e → ∀ y, e.prev_entry = some y →
      ∃ ey, h.find y = some ey ∧ ey.next_entry = some x := by
  induction l generalizing front prevp with
  | nil => intro x hx; simp at hx
  | cons a rest ih =>
    rw [represents_cons] at hr
    obtain ⟨hfront, ea, hfa, hpa, hrest⟩ := hr
    intro x hx e hfe y hpy
    rcases List.mem_cons.mp hx with h1 | h1
    · subst h1
      have hea : ea = e := by
        rw [hfa] at hfe
        exact Option.some_injective _ hfe
      subst hea
      obtain ⟨ey, hfy, hny⟩ := hside y (by rw [← hpa, hpy])
      exact ⟨ey, hfy, by rw [hny, hfront]⟩
    · refine ih hrest ?_ x h1 e hfe y hpy
      intro q hq
      cases Option.some_injective _ hq
      exact ⟨ea, hfa, rfl⟩

/-- Unlinking the head node: the relink step of `unregister_jit_code`
applied to the head of the list leaves a heap in which `next_entry` of
the removed head represents the tail, with a cleared `prev`. -/
theorem unlink_head {h : Heap} {a : Nat} {l2 : List Nat}
    (hr : represents h (some a) none (a :: l2)) (hnd : (a :: l2).Nodup) :
    ∃ ea, h.find a = some ea ∧ ea.prev_entry = none ∧
      ea.next_entry = l2.head? ∧
      represents
        (match ea.next_entry with
         | none => h
         | some n => Heap.setPrev h n ea.prev_entry)
        ea.next_entry none l2 := by
  rw [represents_cons] at hr
  obtain ⟨-, ea, hfa, hpa, hrest⟩ := hr
  cases l2 with
  | nil =>
    rw [represents_nil] at hrest
    refine ⟨ea, hfa, hpa, by simp [hrest], ?_⟩
    rw [hrest]
    exact represents_nil.mpr rfl
  | cons n l2' =>
    rw [represents_cons] at hrest
    obtain ⟨hne, en, hfn, hpn, hrest'⟩ := hrest
    refine ⟨ea, hfa, hpa, by simp [hne], ?_⟩
    rw [hne, hpa]
    rw [represents_cons]
    refine ⟨rfl, { en with prev_entry := none }, ?_, rfl, ?_⟩
    · rw [Heap.find_setPrev, if_pos rfl, hfn]
      rfl
    · refine represents_congr ?_ hrest'
      intro x hx
      have hxn : x ≠ n := by
        intro hxn
        rw [hxn] at hx
        exact (List.nodup_cons.mp (List.nodup_cons.mp hnd).2).1 hx
      rw [Heap.find_setPrev, if_neg hxn]

/-- Unlinking an interior node `a` whose predecessor is `p`: the two
relink stores of `unregister_jit_code` leave a heap representing the
list with `a` removed, without touching `first_entry`. -/
theorem unlink_mid {h : Heap} {p a : Nat} {l2 : List Nat} (l1 : List Nat) :
    ∀ front prevp : Option Nat,
    represents h front prevp (l1 ++ p :: a :: l2) →
    (l1 ++ p :: a :: l2).Nodup →
    ∃ ea ep, h.find a = some ea ∧ h.find p = some ep ∧
      ea.prev_entry = some p ∧ ea.next_entry = l2.head? ∧
      ep.next_entry = some a ∧
      represents
        (Heap.setNext
          (match ea.next_entry with
           | none => h
           | some n => Heap.setPrev h n ea.prev_entry)
          p ea.next_entry)
        front prevp (l1 ++ p :: l2) := by
  induction l1 with
  | nil =>
    intro front prevp hr hnd
    simp only [List.nil_append] at hr hnd ⊢
    rw [represents_cons] at hr
    obtain ⟨hfront, ep, hfp, hpp, hrest⟩ := hr
    rw [represents_cons] at hrest
    obtain ⟨hpnext, ea, hfa, hpa, hrest'⟩ := hrest
    have hpa' : p ≠ a := by
      intro hpa2
      rw [hpa2] at hnd
      exact (List.nodup_cons.mp hnd).1 (List.mem_cons_self _ _)
    cases l2 with
    | nil =>
      rw [represents_nil] at hrest'
      refine ⟨ea, ep, hfa, hfp, hpa, by simp [hrest'], hpnext, ?_⟩
      rw [hrest', hfront]
      rw [represents_cons]
      refine ⟨rfl, { ep with next_entry := none }, ?_, hpp, ?_⟩
      · rw [Heap.find_setNext, if_pos rfl, hfp]
        rfl
      · exact represents_nil.mpr rfl
    | cons n l2' =>
      rw [represents_cons] at hrest'
      obtain ⟨hanext, en, hfn, hpn, hrest''⟩ := hrest'
      have hpn' : p ≠ n := by
        intro hpn2
        rw [hpn2] at hnd
        exact (List.nodup_cons.mp hnd).1
          (List.mem_cons_of_mem _ (List.mem_cons_self _ _))
      have han : a ≠ n := by
        intro han2
        rw [han2] at hnd
        exact (List.nodup_cons.mp (List.nodup_cons.mp hnd).2).1
          (List.mem_cons_self _ _)
      refine ⟨ea, ep, hfa, hfp, hpa, by simp [hanext], hpnext, ?_⟩
      rw [hanext, hpa, hfront]
      rw [represents_cons]
      refine ⟨rfl, { ep with next_entry := some n }, ?_, hpp, ?_⟩
      · rw [Heap.find_setNext, if_pos rfl, Heap.find_setPrev, if_neg hpn',
          hfp]
        rfl
      · rw [represents_cons]
        refine ⟨rfl, { en with prev_entry := some p }, ?_, rfl, ?_⟩
        · rw [Heap.find_setNext, if_neg (Ne.symm hpn'), Heap.find_setPrev,
            if_pos rfl, hfn]
          rfl
        · refine represents_congr ?_ hrest''
          intro x hx
          have hxp : x ≠ p := by
            intro hxp
            rw [hxp] at hx
            exact (List.nodup_cons.mp hnd).1 (by simp [hx])
          have hxn : x ≠ n := by
            intro hxn
            rw [hxn] at hx
            exact (List.nodup_cons.mp
              (List.nodup_cons.mp (List.nodup_cons.mp hnd).2).2).1 hx
          rw [Heap.find_setNext, if_neg hxp, Heap.find_setPrev, if_neg hxn]
  | cons x l1' ih =>
    intro front prevp hr hnd
    rw [List.cons_append] at hr hnd ⊢
    rw [represents_cons] at hr
    obtain ⟨hfront, ex, hfx, hpx, hrest⟩ := hr
    obtain ⟨ea, ep, hfa, hfp, hpa, hanext, hpnext, hrep'⟩ :=
      ih ex.next_entry (some x) hrest (List.nodup_cons.mp hnd).2
    have hxtail := (List.nodup_cons.mp hnd).1
    have hxp : x ≠ p := by
      intro hxp
      rw [hxp] at hxtail
      exact hxtail (by simp)
    refine ⟨ea, ep, hfa, hfp, hpa, hanext, hpnext, ?_⟩
    rw [represents_cons]
    refine ⟨hfront, ex, ?_, hpx, hrep'⟩
    cases hne : ea.next_entry with
    | none =>
      rw [Heap.find_setNext, if_neg hxp]
      exact hfx
    | some n =>
      have hxn : x ≠ n := by
        intro hxn
        rw [hanext] at hne
        have hnl2 : n ∈ l2 := by
          cases l2 with
          | nil => simp at hne
          | cons b l2' =>
            simp only [List.head?] at hne
            cases Option.some_injective _ hne
            exact List.mem_cons_self _ _
        rw [hxn] at hxtail
        exact hxtail (by simp [hnl2])
      rw [Heap.find_setNext, if_neg hxp]
      show (Heap.setPrev h n ea.prev_entry).find x = some ex
      rw [Heap.find_setPrev, if_neg hxn]
      exact hfx

/-- Everything `unregister_jit_code` does on a live handle, in one
statement: the hook-time state `s1` (before `free`) and the final state
(`s1` with the entry freed); descriptor and notification-trace updates;
the relink of the two neighbors and the frame condition on every other
address; and the list invariants for the shortened list. -/
theorem unregister_spec (a : Nat) (s : JitState) (l : List Nat)
    (hg : goodList s l) (ha : a ∈ l) :
    ∃ ea s1,
      s.heap.find a = some ea ∧
      unregister_pre_free a s = UnregResult.ok s1 ∧
      unregister_jit_code a s =
        UnregResult.ok { s1 with heap := s1.heap.erase a } ∧
      s1.nextAlloc = s.nextAlloc ∧
      s1.descriptor.version = s.descriptor.version ∧
      s1.descriptor.action_flag = JIT_UNREGISTER ∧
      s1.descriptor.relevant_entry = some a ∧
      (ea.prev_entry = none → s1.descriptor.first_entry = ea.next_entry) ∧
      (ea.prev_entry ≠ none →
        s1.descriptor.first_entry = s.descriptor.first_entry) ∧
      s1.events = s.events ++ [(JIT_UNREGISTER, some a)] ∧
      s1.heap.find a = some ea ∧
      (∀ x, x ≠ a → some x ≠ ea.prev_entry → some x ≠ ea.next_entry →
        s1.heap.find x = s.heap.find x) ∧
      (∀ p ep, ea.prev_entry = some p → s.heap.find p = some ep →
        s1.heap.find p = some { ep with next_entry := ea.next_entry }) ∧
      (∀ n en, ea.next_entry = some n → s.heap.find n = some en →
        s1.heap.find n = some { en with prev_entry := ea.prev_entry }) ∧
      represents s1.heap s1.descriptor.first_entry none (l.erase a) ∧
      goodList { s1 with heap := s1.heap.erase a } (l.erase a) ∧
      (∀ p0, ea.prev_entry = some p0 → p0 ≠ a) ∧
      (∀ n0, ea.next_entry = some n0 → n0 ≠ a) := by
  obtain ⟨hrep, hnd, hbound⟩ := hg
  obtain ⟨l1, l2, hldec⟩ := List.append_of_mem ha
  subst hldec
  rcases List.eq_nil_or_concat l1 with hl1 | ⟨l1', p, hl1⟩
  · -- the unregistered entry is the head of the list
    subst hl1
    simp only [List.nil_append] at hrep hnd ⊢
    have hfirst : s.descriptor.first_entry = some a :=
      (represents_cons.mp hrep).1
    have hrep' : represents s.heap (some a) none (a :: l2) := by
      rw [hfirst] at hrep
      exact hrep
    obtain ⟨ea, hfa, hpa, hanext, hrep2⟩ := unlink_head hrep' hnd
    have ha2 : a ∉ l2 := (List.nodup_cons.mp hnd).1
    have hnd2 : l2.Nodup := (List.nodup_cons.mp hnd).2
    cases hne : ea.next_entry with
    | none =>
      have hl2 : l2 = [] := by
        cases l2 with
        | nil => rfl
        | cons b t => rw [hanext] at hne; simp at hne
      subst hl2
      have hpre : unregister_pre_free a s = UnregResult.ok
          { s with
            descriptor :=
              { s.descriptor with
                  action_flag := JIT_UNREGISTER,
                  relevant_entry := some a,
                  first_entry := none },
            events := s.events ++ [(JIT_UNREGISTER, some a)] } := by
        unfold unregister_pre_free
        simp only [hfa, hne, hpa, hfirst]
        rw [if_pos trivial]
      have hjit : unregister_jit_code a s = UnregResult.ok
          { s with
            heap := s.heap.erase a,
            descriptor :=
              { s.descriptor with
                  action_flag := JIT_UNREGISTER,
                  relevant_entry := some a,
                  first_entry := none },
            events := s.events ++ [(JIT_UNREGISTER, some a)] } := by
        unfold unregister_jit_code
        rw [hpre]
      refine ⟨ea, _, hfa, hpre, ?_, rfl, rfl, rfl, rfl, ?_, ?_, rfl, hfa,
        ?_, ?_, ?_, ?_, ?_, ?_, ?_⟩
      · rw [hjit]
      · intro _; exact hne.symm
      · intro hc; exact absurd hpa hc
      · intro x _ _ _; rfl
      · intro p0 ep0 hp0 _
        rw [hpa] at hp0
        exact absurd hp0 (by simp)
      · intro n0 en0 hn0
        rw [hne] at hn0
        exact absurd hn0 (by simp)
      · rw [List.erase_cons_head]
        exact represents_nil.mpr rfl
      · rw [List.erase_cons_head]
        refine ⟨represents_nil.mpr rfl, by simp, ?_⟩
        intro kv hkv
        exact hbound _ (Heap.mem_erase hkv)
      · intro p0 hp0
        rw [hpa] at hp0
        exact absurd hp0 (by simp)
      · intro n0 hn0
        rw [hne] at hn0
        exact absurd hn0 (by simp)
    | some n =>
      obtain ⟨l2', hl2⟩ : ∃ l2', l2 = n :: l2' := by
        cases l2 with
        | nil => rw [hanext] at hne; simp at hne
        | cons b t =>
          rw [hanext] at hne
          simp only [List.head?] at hne
          cases Option.some_injective _ hne
          exact ⟨t, rfl⟩
      subst hl2
      have han : a ≠ n := fun hh => ha2 (hh ▸ List.mem_cons_self _ _)
      have hrep2' :
          represents (Heap.setPrev s.heap n none) (some n) none (n :: l2') := by
        rw [hne, hpa] at hrep2
        exact hrep2
      have hpre : unregister_pre_free a s = UnregResult.ok
          { s with
            heap := Heap.setPrev s.heap n none,
            descriptor :=
              { s.descriptor with
                  action_flag := JIT_UNREGISTER,
                  relevant_entry := some a,
                  first_entry := some n },
            events := s.events ++ [(JIT_UNREGISTER, some a)] } := by
        unfold unregister_pre_free
        simp only [hfa, hne, hpa, hfirst]
        rw [if_pos trivial]
      have hjit : unregister_jit_code a s = UnregResult.ok
          { s with
            heap := (Heap.setPrev s.heap n none).erase a,
            descriptor :=
              { s.descriptor with
                  action_flag := JIT_UNREGISTER,
                  relevant_entry := some a,
                  first_entry := some n },
            events := s.events ++ [(JIT_UNREGISTER, some a)] } := by
        unfold unregister_jit_code
        rw [hpre]
      refine ⟨ea, _, hfa, hpre, ?_, rfl, rfl, rfl, rfl, ?_, ?_, rfl, ?_,
        ?_, ?_, ?_, ?_, ?_, ?_, ?_⟩
      · rw [hjit]
      · intro _; exact hne.symm
      · intro hc; exact absurd hpa hc
      · show (Heap.setPrev s.heap n none).find a = some ea
        rw [Heap.find_setPrev, if_neg han]
        exact hfa
      · intro x hxa _ hxn
        have hxn' : x ≠ n := fun hh => hxn (by rw [hh]; exact hne.symm)
        show (Heap.setPrev s.heap n none).find x = s.heap.find x
        rw [Heap.find_setPrev, if_neg hxn']
      · intro p0 ep0 hp0 _
        rw [hpa] at hp0
        exact absurd hp0 (by simp)
      · intro n0 en0 hn0 hfn0
        rw [hne] at hn0
        cases Option.some_injective _ hn0
        show (Heap.setPrev s.heap n none).find n =
          some { en0 with prev_entry := ea.prev_entry }
        rw [Heap.find_setPrev, if_pos rfl, hfn0, hpa]
        rfl
      · rw [List.erase_cons_head]
        exact hrep2'
      · rw [List.erase_cons_head]
        refine ⟨?_, hnd2, ?_⟩
        · refine represents_congr ?_ hrep2'
          intro x hx
          have hxa : x ≠ a := fun hh => ha2 (hh ▸ hx)
          show ((Heap.setPrev s.heap n none).erase a).find x = _
          rw [Heap.find_erase, if_neg hxa]
        · intro kv hkv
          obtain ⟨e0, he0⟩ := Heap.mem_setPrev (Heap.mem_erase hkv)
          exact hbound (kv.1, e0) he0
      · intro p0 hp0
        rw [hpa] at hp0
        exact absurd hp0 (by simp)
      · intro n0 hn0
        rw [hne] at hn0
        cases Option.some_injective _ hn0
        exact Ne.symm han
  · -- the unregistered entry has a predecessor p
    rw [List.concat_eq_append] at hl1
    subst hl1
    have hassoc : (l1' ++ [p]) ++ a :: l2 = l1' ++ p :: a :: l2 := by simp
    rw [hassoc] at hrep hnd ⊢
    obtain ⟨ea, ep, hfa, hfp, hpa, hanext, hpnext, hrep2⟩ :=
      unlink_mid l1' s.descriptor.first_entry none hrep hnd
    obtain ⟨hndl1, hndtail, hdisj⟩ := List.nodup_append.mp hnd
    have hpnotin : p ∉ a :: l2 := (List.nodup_cons.mp hndtail).1
    have hpa2 : p ≠ a := fun hh => hpnotin (hh ▸ List.mem_cons_self _ _)
    have hpl2 : p ∉ l2 := fun hh => hpnotin (List.mem_cons_of_mem _ hh)
    have ha2 : a ∉ l2 :=
      (List.nodup_cons.mp (List.nodup_cons.mp hndtail).2).1
    have hal1 : a ∉ l1' := fun hh =>
      hdisj hh (List.mem_cons_of_mem _ (List.mem_cons_self _ _))
    have hanotrest : a ∉ l1' ++ p :: l2 := by
      intro hmem
      rcases List.mem_append.mp hmem with hmem | hmem
      · exact hal1 hmem
      · rcases List.mem_cons.mp hmem with hmem | hmem
        · exact hpa2 hmem.symm
        · exact ha2 hmem
    have herase : (l1' ++ p :: a :: l2).erase a = l1' ++ p :: l2 := by
      have hapl1 : a ∉ l1' ++ [p] := by
        intro hmem
        rcases List.mem_append.mp hmem with hmem | hmem
        · exact hal1 hmem
        · have hap : a = p := by simpa using hmem
          exact hpa2 hap.symm
      calc (l1' ++ p :: a :: l2).erase a
          = ((l1' ++ [p]) ++ a :: l2).erase a := by rw [hassoc]
        _ = (l1' ++ [p]) ++ (a :: l2).erase a :=
            List.erase_append_right _ hapl1
        _ = (l1' ++ [p]) ++ l2 := by rw [List.erase_cons_head]
        _ = l1' ++ p :: l2 := by simp
    have hndE : (l1' ++ p :: l2).Nodup := by
      have := hnd.erase a
      rw [herase] at this
      exact this
    cases hne : ea.next_entry with
    | none =>
      have hl2 : l2 = [] := by
        cases l2 with
        | nil => rfl
        | cons b t => rw [hanext] at hne; simp at hne
      subst hl2
      have hrep2' :
          represents (Heap.setNext s.heap p none)
            s.descriptor.first_entry none (l1' ++ [p]) := by
        rw [hne] at hrep2
        exact hrep2
      have hpre : unregister_pre_free a s = UnregResult.ok
          { s with
            heap := Heap.setNext s.heap p none,
            descriptor :=
              { s.descriptor with
                  action_flag := JIT_UNREGISTER,
                  relevant_entry := some a },
            events := s.events ++ [(JIT_UNREGISTER, some a)] } := by
        unfold unregister_pre_free
        simp only [hfa, hne, hpa]
      have hjit : unregister_jit_code a s = UnregResult.ok
          { s with
            heap := (Heap.setNext s.heap p none).erase a,
            descriptor :=
              { s.descriptor with
                  action_flag := JIT_UNREGISTER,
                  relevant_entry := some a },
            events := s.events ++ [(JIT_UNREGISTER, some a)] } := by
        unfold unregister_jit_code
        rw [hpre]
      refine ⟨ea, _, hfa, hpre, ?_, rfl, rfl, rfl, rfl, ?_, ?_, rfl, ?_,
        ?_, ?_, ?_, ?_, ?_, ?_, ?_⟩
      · rw [hjit]
      · intro hc; rw [hpa] at hc; exact absurd hc (by simp)
      · intro _; rfl
      · show (Heap.setNext s.heap p none).find a = some ea
        rw [Heap.find_setNext, if_neg (Ne.symm hpa2)]
        exact hfa
      · intro x hxa hxp _
        have hxp' : x ≠ p := fun hh => hxp (by rw [hh, hpa])
        show (Heap.setNext s.heap p none).find x = s.heap.find x
        rw [Heap.find_setNext, if_neg hxp']
      · intro p0 ep0 hp0 hfp0
        rw [hpa] at hp0
        cases Option.some_injective _ hp0
        show (Heap.setNext s.heap p none).find p =
          some { ep0 with next_entry := ea.next_entry }
        rw [Heap.find_setNext, if_pos rfl, hfp0, hne]
        rfl
      · intro n0 en0 hn0
        rw [hne] at hn0
        exact absurd hn0 (by simp)
      · rw [herase]
        exact hrep2'
      · rw [herase]
        refine ⟨?_, hndE, ?_⟩
        · refine represents_congr ?_ hrep2'
          intro x hx
          have hxa : x ≠ a := fun hh => hanotrest (hh ▸ hx)
          show ((Heap.setNext s.heap p none).erase a).find x = _
          rw [Heap.find_erase, if_neg hxa]
        · intro kv hkv
          obtain ⟨e0, he0⟩ := Heap.mem_setNext (Heap.mem_erase hkv)
          exact hbound (kv.1, e0) he0
      · intro p0 hp0
        rw [hpa] at hp0
        cases Option.some_injective _ hp0
        exact hpa2
      · intro n0 hn0
        rw [hne] at hn0
        exact absurd hn0 (by simp)
    | some n =>
      obtain ⟨l2', hl2⟩ : ∃ l2', l2 = n :: l2' := by
        cases l2 with
        | nil => rw [hanext] at hne; simp at hne
        | cons b t =>
          rw [hanext] at hne
          simp only [List.head?] at hne
          cases Option.some_injective _ hne
          exact ⟨t, rfl⟩
      subst hl2
      have han : a ≠ n := fun hh => ha2 (hh ▸ List.mem_cons_self _ _)
      have hpn : p ≠ n := fun hh => hpl2 (hh ▸ List.mem_cons_self _ _)
      have hrep2' :
          represents (Heap.setNext (Heap.setPrev s.heap n (some p)) p (some n))
            s.descriptor.first_entry none (l1' ++ p :: n :: l2') := by
        rw [hne, hpa] at hrep2
        exact hrep2
      have hpre : unregister_pre_free a s = UnregResult.ok
          { s with
            heap := Heap.setNext (Heap.setPrev s.heap n (some p)) p (some n),
            descriptor :=
              { s.descriptor with
                  action_flag := JIT_UNREGISTER,
                  relevant_entry := some a },
            events := s.events ++ [(JIT_UNREGISTER, some a)] } := by
        unfold unregister_pre_free
        simp only [hfa, hne, hpa]
      have hjit : unregister_jit_code a s = UnregResult.ok
          { s with
            heap :=
              (Heap.setNext (Heap.setPrev s.heap n (some p)) p (some n)).erase a,
            descriptor :=
              { s.descriptor with
                  action_flag := JIT_UNREGISTER,
                  relevant_entry := some a },
            events := s.events ++ [(JIT_UNREGISTER, some a)] } := by
        unfold unregister_jit_code
        rw [hpre]
      refine ⟨ea, _, hfa, hpre, ?_, rfl, rfl, rfl, rfl, ?_, ?_, rfl, ?_,
        ?_, ?_, ?_, ?_, ?_, ?_, ?_⟩
      · rw [hjit]
      · intro hc; rw [hpa] at hc; exact absurd hc (by simp)
      · intro _; rfl
      · show (Heap.setNext (Heap.setPrev s.heap n (some p)) p (some n)).find a =
          some ea
        rw [Heap.find_setNext, if_neg (Ne.symm hpa2), Heap.find_setPrev,
          if_neg han]
        exact hfa
      · intro x hxa hxp hxn
        have hxp' : x ≠ p := fun hh => hxp (by rw [hh, hpa])
        have hxn' : x ≠ n := fun hh => hxn (by rw [hh]; exact hne.symm)
        show (Heap.setNext (Heap.setPrev s.heap n (some p)) p (some n)).find x =
          s.heap.find x
        rw [Heap.find_setNext, if_neg hxp', Heap.find_setPrev, if_neg hxn']
      · intro p0 ep0 hp0 hfp0
        rw [hpa] at hp0
        cases Option.some_injective _ hp0
        show (Heap.setNext (Heap.setPrev s.heap n (some p)) p (some n)).find p =
          some { ep0 with next_entry := ea.next_entry }
        rw [Heap.find_setNext, if_pos rfl, Heap.find_setPrev, if_neg hpn,
          hfp0, hne]
        rfl
      · intro n0 en0 hn0 hfn0
        rw [hne] at hn0
        cases Option.some_injective _ hn0
        show (Heap.setNext (Heap.setPrev s.heap n (some p)) p (some n)).find n =
          some { en0 with prev_entry := ea.prev_entry }
        rw [Heap.find_setNext, if_neg (Ne.symm hpn), Heap.find_setPrev,
          if_pos rfl, hfn0, hpa]
        rfl
      · rw [herase]
        exact hrep2'
      · rw [herase]
        refine ⟨?_, hndE, ?_⟩
        · refine represents_congr ?_ hrep2'
          intro x hx
          have hxa : x ≠ a := fun hh => hanotrest (hh ▸ hx)
          show ((Heap.setNext (Heap.setPrev s.heap n (some p)) p
            (some n)).erase a).find x = _
          rw [Heap.find_erase, if_neg hxa]
        · intro kv hkv
          obtain ⟨e0, he0⟩ :=
            Heap.mem_setNext (Heap.mem_erase hkv)
          obtain ⟨e1, he1⟩ := Heap.mem_setPrev he0
          exact hbound (kv.1, e1) he1
      · intro p0 hp0
        rw [hpa] at hp0
        cases Option.some_injective _ hp0
        exact hpa2
      · intro n0 hn0
        rw [hne] at hn0
        cases Option.some_injective _ hn0
        exact Ne.symm han

/-- The list invariants hold after every valid call sequence, with the
live-handle list (newest first) as the represented list. -/
theorem validSeq_goodList {s : JitState} {l : List Nat}
    (hv : ValidSeq s l) : goodList s l := by
  induction hv with
  | init => decide
  | reg addr size hv ih =>
    exact (register_spec _ _ _ _ ih).2.2.2.2.2.2.2.2
  | unreg hv hmem hok ih =>
    obtain ⟨ea, s1, -, -, hjit, -, -, -, -, -, -, -, -, -, -, -, -,
      hgood, -, -⟩ := unregister_spec _ _ _ ih hmem
    rw [hok] at hjit
    injection hjit with hs
    rw [hs]
    exact hgood

/-- C1: after every sequence of register/unregister calls (unregister
only on live handles), the structure reachable from `first_entry` is a
finite acyclic doubly linked list: it is exactly a duplicate-free address
list `addrs` (reachability by `next_entry`-chasing coincides with
membership and the traversal terminates), `first_entry` is null iff the
list is empty, the head entry has a null `prev_entry`, and for every
entry, `next_entry`/`prev_entry` point at entries that point back. -/
theorem C1_list_invariants (s : JitState) (l : List Nat)
    (hv : ValidSeq s l) :
    ∃ addrs : List Nat,
      represents s.heap s.descriptor.first_entry none addrs ∧
      addrs.Nodup ∧
      (∀ x, (∃ k, reachN s.heap s.descriptor.first_entry k = some x) ↔
        x ∈ addrs) ∧
      reachN s.heap s.descriptor.first_entry addrs.length = none ∧
      (s.descriptor.first_entry = none ↔ addrs = []) ∧
      (∀ b, s.descriptor.first_entry = some b →
        ∃ eb, s.heap.find b = some eb ∧ eb.prev_entry = none) ∧
      (∀ x ∈ addrs, ∀ e, s.heap.find x = some e →
        (∀ y, e.next_entry = some y →
          ∃ ey, s.heap.find y = some ey ∧ ey.prev_entry = some x) ∧
        (∀ y, e.prev_entry = some y →
          ∃ ey, s.heap.find y = some ey ∧ ey.next_entry = some x)) := by
  obtain ⟨hrep, hnd, hbound⟩ := validSeq_goodList hv
  refine ⟨l, hrep, hnd, ?_, reachN_length hrep, ?_, ?_, ?_⟩
  · intro x
    constructor
    · rintro ⟨k, hk⟩
      exact reachN_mem hrep hk
    · intro hx
      exact mem_reachN hrep hx
  · constructor
    · intro hnone
      rw [hnone] at hrep
      exact represents_none_nil hrep
    · intro hnil
      subst hnil
      exact represents_nil.mp hrep
  · intro b hb
    cases l with
    | nil =>
      rw [represents_nil] at hrep
      rw [hrep] at hb
      exact absurd hb (by simp)
    | cons c rest =>
      rw [represents_cons] at hrep
      obtain ⟨hfront, e, hfind, hprev, -⟩ := hrep
      rw [hfront] at hb
      cases Option.some_injective _ hb
      exact ⟨e, hfind, hprev⟩
  · intro x hx e hfe
    refine ⟨represents_next_prev hrep x hx e hfe, ?_⟩
    refine represents_prev_next hrep ?_ x hx e hfe
    intro q hq
    exact absurd hq (by simp)

/-- Witness for C1: a concrete valid sequence (one register call from the
initial state) satisfies the invariant conclusion. -/
theorem C1_list_invariants_witness :
    ∃ addrs : List Nat,
      represents (register_jit_code 101 64 initialState).1.heap
        (register_jit_code 101 64 initialState).1.descriptor.first_entry
        none addrs ∧ addrs.Nodup := by
  obtain ⟨addrs, h1, h2, -⟩ :=
    C1_list_invariants _ _ (ValidSeq.reg 101 64 ValidSeq.init)
  exact ⟨addrs, h1, h2⟩

/-- C2: `register_jit_code(addr, size)` allocates a fresh entry holding
exactly that buffer and size, inserts it at the head (`next_entry` = old
head, `prev_entry` null, old head points back), sets `first_entry` and
`relevant_entry` to it and `action_flag` to REGISTER, returns its
handle, and afterwards the new entry is reachable from `first_entry` in
zero `next_entry` steps; the list invariants still hold. -/
theorem C2_register (addr size : Nat) (s : JitState) (l : List Nat)
    (hg : goodList s l) :
    s.heap.find (register_jit_code addr size s).2 = none ∧
    (register_jit_code addr size s).1.heap.find
        (register_jit_code addr size s).2 =
      some { next_entry := s.descriptor.first_entry, prev_entry := none,
             symfile_addr := addr, symfile_size := size } ∧
    (∀ b eb, s.descriptor.first_entry = some b → s.heap.find b = some eb →
      (register_jit_code addr size s).1.heap.find b =
        some { eb with
                 prev_entry := some (register_jit_code addr size s).2 }) ∧
    (register_jit_code addr size s).1.descriptor.first_entry =
      some (register_jit_code addr size s).2 ∧
    (register_jit_code addr size s).1.descriptor.relevant_entry =
      some (register_jit_code addr size s).2 ∧
    (register_jit_code addr size s).1.descriptor.action_flag =
      JIT_REGISTER ∧
    reachN (register_jit_code addr size s).1.heap
        (register_jit_code addr size s).1.descriptor.first_entry 0 =
      some (register_jit_code addr size s).2 ∧
    goodList (register_jit_code addr size s).1
      ((register_jit_code addr size s).2 :: l) := by
  obtain ⟨-, -, hdesc, -, hfresh, hnew, -, hhead, hgood⟩ :=
    register_spec addr size s l hg
  refine ⟨hfresh, hnew, hhead, ?_, ?_, ?_, ?_, hgood⟩
  · rw [hdesc]
    rfl
  · rw [hdesc]
    rfl
  · rw [hdesc]
  · show (register_jit_code addr size s).1.descriptor.first_entry =
      some (register_jit_code addr size s).2
    rw [hdesc]
    rfl

/-- Witness for C2 at the initial state. -/
theorem C2_register_witness :
    goodList initialState [] ∧
    (register_jit_code 101 64 initialState).1.heap.find
        (register_jit_code 101 64 initialState).2 =
      some { next_entry := initialState.descriptor.first_entry,
             prev_entry := none, symfile_addr := 101,
             symfile_size := 64 } ∧
    reachN (register_jit_code 101 64 initialState).1.heap
        (register_jit_code 101 64 initialState).1.descriptor.first_entry 0 =
      some (register_jit_code 101 64 initialState).2 :=
  ⟨by decide,
   (C2_register 101 64 initialState [] (by decide)).2.1,
   (C2_register 101 64 initialState [] (by decide)).2.2.2.2.2.2.1⟩

/-- C3: `unregister_jit_code` on a live entry re-links the neighbors to
close the gap (the predecessor's `next_entry` becomes the removed
entry's `next_entry`, the successor's `prev_entry` becomes the removed
entry's `prev_entry`, and when there is no predecessor `first_entry`
moves to the removed entry's `next_entry`), sets `action_flag` to
UNREGISTER and `relevant_entry` to the removed entry, and afterwards the
removed entry is unreachable from `first_entry`. -/
theorem C3_unregister (a : Nat) (s : JitState) (l : List Nat)
    (hg : goodList s l) (ha : a ∈ l) :
    ∃ ea s', s.heap.find a = some ea ∧
      unregister_jit_code a s = UnregResult.ok s' ∧
      (∀ p ep, ea.prev_entry = some p → s.heap.find p = some ep →
        s'.heap.find p = some { ep with next_entry := ea.next_entry }) ∧
      (∀ n en, ea.next_entry = some n → s.heap.find n = some en →
        s'.heap.find n = some { en with prev_entry := ea.prev_entry }) ∧
      (ea.prev_entry = none → s'.descriptor.first_entry = ea.next_entry) ∧
      s'.descriptor.action_flag = JIT_UNREGISTER ∧
      s'.descriptor.relevant_entry = some a ∧
      (∀ k, reachN s'.heap s'.descriptor.first_entry k ≠ some a) := by
  obtain ⟨ea, s1, hfa, hpre, hjit, hnal, hver, hact, hrel, hpn, hps, hev,
    hfa1, hframe, hpconj, hnconj, hrep, hgood, hpneq, hnneq⟩ :=
    unregister_spec a s l hg ha
  refine ⟨ea, { s1 with heap := s1.heap.erase a }, hfa, hjit, ?_, ?_,
    hpn, hact, hrel, ?_⟩
  · intro p ep hp hfp
    show (s1.heap.erase a).find p = _
    rw [Heap.find_erase, if_neg (hpneq p hp)]
    exact hpconj p ep hp hfp
  · intro n en hn hfn
    show (s1.heap.erase a).find n = _
    rw [Heap.find_erase, if_neg (hnneq n hn)]
    exact hnconj n en hn hfn
  · intro k hk
    have hmem : a ∈ l.erase a := reachN_mem hgood.1 hk
    have := (hg.2.1.mem_erase_iff).mp hmem
    exact absurd rfl this.1

/-- Witness for C3: unregistering the older of two registered entries. -/
theorem C3_unregister_witness :
    ∃ ea s',
      (register_jit_code 102 128
        (register_jit_code 101 64 initialState).1).1.heap.find 0 =
          some ea ∧
      unregister_jit_code 0
        (register_jit_code 102 128
          (register_jit_code 101 64 initialState).1).1 =
        UnregResult.ok s' ∧
      s'.descriptor.action_flag = JIT_UNREGISTER ∧
      s'.descriptor.relevant_entry = some 0 ∧
      (∀ k, reachN s'.heap s'.descriptor.first_entry k ≠ some 0) := by
  obtain ⟨ea, s', h1, h2, -, -, -, h6, h7, h8⟩ :=
    C3_unregister 0
      (register_jit_code 102 128
        (register_jit_code 101 64 initialState).1).1
      [1, 0] (by decide) (by decide)
  exact ⟨ea, s', h1, h2, h6, h7, h8⟩

/-- C4: the notification hook `__jit_debug_register_code` fires exactly
once per register call and once per unregister call — the invocation
trace grows by exactly one snapshot, and nothing else ever appends to
it — and at the moment it fires the descriptor already carries the final
values of `action_flag` and `relevant_entry` for that action (REGISTER
and the new entry; UNREGISTER and the removed entry), which are not
mutated again before the call returns. -/
theorem C4_notification :
    (∀ addr size : Nat, ∀ s : JitState,
      ((register_jit_code addr size s).1).events =
        s.events ++
          [((register_jit_code addr size s).1.descriptor.action_flag,
            (register_jit_code addr size s).1.descriptor.relevant_entry)] ∧
      (register_jit_code addr size s).1.descriptor.action_flag =
        JIT_REGISTER ∧
      (register_jit_code addr size s).1.descriptor.relevant_entry =
        some (register_jit_code addr size s).2) ∧
    (∀ a : Nat, ∀ s : JitState,
      match unregister_jit_code a s with
      | UnregResult.ok s1 =>
        s1.events = s.events ++
          [(s1.descriptor.action_flag, s1.descriptor.relevant_entry)] ∧
        s1.descriptor.action_flag = JIT_UNREGISTER ∧
        s1.descriptor.relevant_entry = some a
      | _ => True) := by
  refine ⟨fun addr size s => ⟨rfl, rfl, rfl⟩, fun a s => ?_⟩
  cases hfa : s.heap.find a with
  | none => simp [unregister_jit_code, unregister_pre_free, hfa]
  | some entry =>
    cases hp : entry.prev_entry with
    | some p =>
      simp [unregister_jit_code, unregister_pre_free, hfa, hp]
    | none =>
      by_cases hf : s.descriptor.first_entry = some a
      · simp [unregister_jit_code, unregister_pre_free, hfa, hp, hf]
      · simp [unregister_jit_code, unregister_pre_free, hfa, hp, hf]

/-- C5 (code bug): the C code never tests the result of `malloc`; the
very next statement stores through the returned pointer, so on
allocation failure it dereferences `NULL` (undefined behavior) instead
of reporting an explicit error to the caller with the state unchanged. -/
theorem C5_alloc_failure_null_deref (addr size : Nat) (s : JitState) :
    register_jit_code_alloc addr size none s = RegResult.nullDeref := rfl

/-- C6: when the entry's `prev_entry` is null but the entry is not the
current `first_entry`, the defensive
`assert(__jit_debug_descriptor.first_entry == entry)` fails and the
process aborts. -/
theorem C6_assert_abort (a : Nat) (s : JitState) (ea : jit_code_entry)
    (hfa : s.heap.find a = some ea) (hpa : ea.prev_entry = none)
    (hfz : s.descriptor.first_entry ≠ some a) :
    unregister_jit_code a s = UnregResult.abort := by
  unfold unregister_jit_code unregister_pre_free
  simp only [hfa, hpa]
  rw [if_neg hfz]

/-- A corrupted state for the C6 witness: one live entry with a null
`prev_entry` that the descriptor does not list as the head. -/
def corruptState : JitState :=
  { heap := [(0, { next_entry := none, prev_entry := none,
                   symfile_addr := 5, symfile_size := 1 })],
    nextAlloc := 1, descriptor := init_descriptor, events := [] }

/-- Witness for C6 at the corrupted state. -/
theorem C6_assert_abort_witness :
    corruptState.heap.find 0 =
      some { next_entry := none, prev_entry := none,
             symfile_addr := 5, symfile_size := 1 } ∧
    corruptState.descriptor.first_entry ≠ some 0 ∧
    unregister_jit_code 0 corruptState = UnregResult.abort :=
  ⟨by decide, by decide,
   C6_assert_abort 0 corruptState
     { next_entry := none, prev_entry := none,
       symfile_addr := 5, symfile_size := 1 }
     (by decide) rfl (by decide)⟩

/-- C7: at the moment the notification hook runs during unregister
(the `unregister_pre_free` state), the removed entry is already
unlinked — unreachable from `first_entry` — while its node, including
`symfile_addr` and `symfile_size`, is still live in the heap unchanged;
the memory is released only afterwards (the completed call's state is
exactly the hook state with the entry freed, after which the address no
longer dereferences). -/
theorem C7_hook_before_free (a : Nat) (s : JitState) (l : List Nat)
    (hg : goodList s l) (ha : a ∈ l) :
    ∃ ea s1, s.heap.find a = some ea ∧
      unregister_pre_free a s = UnregResult.ok s1 ∧
      s1.events = s.events ++ [(JIT_UNREGISTER, some a)] ∧
      s1.heap.find a = some ea ∧
      (∀ k, reachN s1.heap s1.descriptor.first_entry k ≠ some a) ∧
      unregister_jit_code a s =
        UnregResult.ok { s1 with heap := s1.heap.erase a } ∧
      (s1.heap.erase a).find a = none := by
  obtain ⟨ea, s1, hfa, hpre, hjit, hnal, hver, hact, hrel, hpn, hps, hev,
    hfa1, hframe, hpconj, hnconj, hrep, hgood, hpneq, hnneq⟩ :=
    unregister_spec a s l hg ha
  refine ⟨ea, s1, hfa, hpre, hev, hfa1, ?_, hjit, ?_⟩
  · intro k hk
    have hmem : a ∈ l.erase a := reachN_mem hrep hk
    have := (hg.2.1.mem_erase_iff).mp hmem
    exact absurd rfl this.1
  · rw [Heap.find_erase, if_pos rfl]

/-- Witness for C7: unregistering the head of a one-entry list. -/
theorem C7_hook_before_free_witness :
    ∃ ea s1,
      (register_jit_code 101 64 initialState).1.heap.find 0 = some ea ∧
      unregister_pre_free 0 (register_jit_code 101 64 initialState).1 =
        UnregResult.ok s1 ∧
      s1.heap.find 0 = some ea ∧
      (s1.heap.erase 0).find 0 = none := by
  obtain ⟨ea, s1, h1, h2, -, h4, -, -, h7⟩ :=
    C7_hook_before_free 0 (register_jit_code 101 64 initialState).1
      [0] (by decide) (by decide)
  exact ⟨ea, s1, h1, h2, h4, h7⟩

/-- Two record updates of `prev_entry` collapse; a node whose
`prev_entry` is already null is unchanged by clearing it. -/
theorem entry_eta_prev {e : jit_code_entry} (hp : e.prev_entry = none) :
    ({ e with prev_entry := none } : jit_code_entry) = e := by
  cases e
  simp only at hp
  subst hp
  rfl

/-- C8: registering and then immediately unregistering the returned
handle restores the list to an identical shape — same `first_entry`,
same entries at the same addresses in the same order — modulo the freed
node. -/
theorem C8_register_then_unregister (addr size : Nat) (s : JitState)
    (l : List Nat) (hg : goodList s l) :
    ∃ s2, unregister_jit_code (register_jit_code addr size s).2
        (register_jit_code addr size s).1 = UnregResult.ok s2 ∧
      s2.descriptor.first_entry = s.descriptor.first_entry ∧
      (∀ x ∈ l, s2.heap.find x = s.heap.find x) ∧
      represents s2.heap s2.descriptor.first_entry none l := by
  obtain ⟨-, -, -, -, -, hnew, hother, hhead, hgood1⟩ :=
    register_spec addr size s l hg
  obtain ⟨ea, s1p, hfa, hpre, hjit, hnal, hver, hact, hrel, hpn, hps, hev2,
    hfa1, hframe, hpconj, hnconj, hrep, hgood, hpneq, hnneq⟩ :=
    unregister_spec s.nextAlloc (register_jit_code addr size s).1
      (s.nextAlloc :: l) hgood1 (List.mem_cons_self _ _)
  have hea : ea =
      { next_entry := s.descriptor.first_entry
        prev_entry := none
        symfile_addr := addr
        symfile_size := size } := by
    rw [hfa] at hnew
    exact Option.some_injective _ hnew
  subst hea
  refine ⟨{ s1p with heap := s1p.heap.erase s.nextAlloc }, hjit,
    hpn rfl, ?_, ?_⟩
  · intro x hx
    have hxa : x ≠ s.nextAlloc := Nat.ne_of_lt (goodList_mem_lt hg x hx)
    show (s1p.heap.erase s.nextAlloc).find x = s.heap.find x
    rw [Heap.find_erase, if_neg hxa]
    cases hfe : s.descriptor.first_entry with
    | none =>
      have hs1x : (register_jit_code addr size s).1.heap.find x =
          s.heap.find x := hother x hxa (by rw [hfe]; simp)
      rw [hframe x hxa (by simp)
        (by show some x ≠ s.descriptor.first_entry; rw [hfe]; simp), hs1x]
    | some b =>
      obtain ⟨rest, hlb, eb, hfb, hpb⟩ :
          ∃ rest, l = b :: rest ∧ ∃ eb, s.heap.find b = some eb ∧
            eb.prev_entry = none := by
        cases l with
        | nil =>
          have h0 := hg.1
          rw [represents_nil] at h0
          rw [h0] at hfe
          exact absurd hfe (by simp)
        | cons c rest =>
          have hr := hg.1
          rw [hfe, represents_cons] at hr
          obtain ⟨hcb, e0, hf0, hp0, -⟩ := hr
          cases Option.some_injective _ hcb
          exact ⟨rest, rfl, e0, hf0, hp0⟩
      by_cases hxb : x = b
      · subst hxb
        have hs1b : (register_jit_code addr size s).1.heap.find x =
            some { eb with prev_entry := some s.nextAlloc } :=
          hhead x eb hfe hfb
        have h2 := hnconj x ({ eb with prev_entry := some s.nextAlloc })
          hfe hs1b
        rw [h2, hfb]
        exact congrArg some (entry_eta_prev hpb)
      · have hs1x : (register_jit_code addr size s).1.heap.find x =
            s.heap.find x := by
          refine hother x hxa ?_
          rw [hfe]
          intro hc
          exact hxb (Option.some_injective _ hc)
        rw [hframe x hxa (by simp) ?_, hs1x]
        show some x ≠ s.descriptor.first_entry
        rw [hfe]
        intro hc
        exact hxb (Option.some_injective _ hc)
  · have hr2 := hgood.1
    rw [List.erase_cons_head] at hr2
    exact hr2

/-- Witness for C8: register on top of a one-entry list, then
unregister the new head; the one-entry list is restored. -/
theorem C8_register_then_unregister_witness :
    ∃ s2, unregister_jit_code
        (register_jit_code 102 128
          (register_jit_code 101 64 initialState).1).2
        (register_jit_code 102 128
          (register_jit_code 101 64 initialState).1).1 =
      UnregResult.ok s2 ∧
      s2.descriptor.first_entry =
        (register_jit_code 101 64 initialState).1.descriptor.first_entry ∧
      represents s2.heap s2.descriptor.first_entry none [0] := by
  obtain ⟨s2, h1, h2, -, h4⟩ :=
    C8_register_then_unregister 102 128
      (register_jit_code 101 64 initialState).1 [0] (by decide)
  exact ⟨s2, h1, h2, h4⟩

/-- C9: the descriptor's `version` is fixed by the static initializer
`__jit_debug_descriptor = { 1, 0, 0, 0 }` to `1` at process start and is
never mutated: neither register nor (any completing) unregister changes
it. -/
theorem C9_version_immutable :
    init_descriptor.version = 1 ∧
    initialState.descriptor = init_descriptor ∧
    (∀ addr size : Nat, ∀ s : JitState,
      (register_jit_code addr size s).1.descriptor.version =
        s.descriptor.version) ∧
    (∀ a : Nat, ∀ s : JitState,
      match unregister_jit_code a s with
      | UnregResult.ok s1 => s1.descriptor.version = s.descriptor.version
      | _ => True) := by
  refine ⟨rfl, rfl, fun addr size s => rfl, fun a s => ?_⟩
  cases hfa : s.heap.find a with
  | none => simp [unregister_jit_code, unregister_pre_free, hfa]
  | some entry =>
    cases hp : entry.prev_entry with
    | some p => simp [unregister_jit_code, unregister_pre_free, hfa, hp]
    | none =>
      by_cases hf : s.descriptor.first_entry = some a
      · simp [unregister_jit_code, unregister_pre_free, hfa, hp, hf]
      · simp [unregister_jit_code, unregister_pre_free, hfa, hp, hf]

/-- C10: frame conditions.  Among pre-existing entries, register touches
only the old head (and only its `prev_entry`); unregister touches only
the removed entry's two immediate neighbors (and only their link
fields); `symfile_addr`/`symfile_size` of every other entry survive both
operations unchanged. -/
theorem C10_frame (addr size a : Nat) (s : JitState) (l : List Nat)
    (hg : goodList s l) (ha : a ∈ l) :
    (∀ x ∈ l, some x ≠ s.descriptor.first_entry →
      (register_jit_code addr size s).1.heap.find x = s.heap.find x) ∧
    (∀ b eb, s.descriptor.first_entry = some b → s.heap.find b = some eb →
      (register_jit_code addr size s).1.heap.find b =
        some { eb with
                 prev_entry := some (register_jit_code addr size s).2 }) ∧
    (∀ x ∈ l, ((register_jit_code addr size s).1.heap.find x).map
        (fun e => (e.symfile_addr, e.symfile_size)) =
      (s.heap.find x).map (fun e => (e.symfile_addr, e.symfile_size))) ∧
    ∃ ea s', s.heap.find a = some ea ∧
      unregister_jit_code a s = UnregResult.ok s' ∧
      (∀ x ∈ l, x ≠ a → some x ≠ ea.prev_entry → some x ≠ ea.next_entry →
        s'.heap.find x = s.heap.find x) ∧
      (∀ p ep, ea.prev_entry = some p → s.heap.find p = some ep →
        s'.heap.find p = some { ep with next_entry := ea.next_entry }) ∧
      (∀ n en, ea.next_entry = some n → s.heap.find n = some en →
        s'.heap.find n = some { en with prev_entry := ea.prev_entry }) ∧
      (∀ x ∈ l, x ≠ a → (s'.heap.find x).map
          (fun e => (e.symfile_addr, e.symfile_size)) =
        (s.heap.find x).map
          (fun e => (e.symfile_addr, e.symfile_size))) := by
  obtain ⟨-, -, -, -, -, -, hother, hhead, -⟩ :=
    register_spec addr size s l hg
  obtain ⟨ea, s1p, hfa, hpre, hjit, -, -, -, -, -, -, -, hfa1, hframe,
    hpconj, hnconj, -, -, hpneq, hnneq⟩ := unregister_spec a s l hg ha
  refine ⟨?_, hhead, ?_, ea, { s1p with heap := s1p.heap.erase a }, hfa,
    hjit, ?_, ?_, ?_, ?_⟩
  · intro x hx hxf
    exact hother x (Nat.ne_of_lt (goodList_mem_lt hg x hx)) hxf
  · intro x hx
    by_cases hxf : some x = s.descriptor.first_entry
    · obtain ⟨ex, hfx⟩ := represents_find hg.1 hx
      rw [hhead x ex hxf.symm hfx, hfx]
      rfl
    · rw [hother x (Nat.ne_of_lt (goodList_mem_lt hg x hx)) hxf]
  · intro x hx hxa hxp hxn
    show (s1p.heap.erase a).find x = s.heap.find x
    rw [Heap.find_erase, if_neg hxa]
    exact hframe x hxa hxp hxn
  · intro p ep hp hfp
    show (s1p.heap.erase a).find p = _
    rw [Heap.find_erase, if_neg (hpneq p hp)]
    exact hpconj p ep hp hfp
  · intro n en hn hfn
    show (s1p.heap.erase a).find n = _
    rw [Heap.find_erase, if_neg (hnneq n hn)]
    exact hnconj n en hn hfn
  · intro x hx hxa
    show ((s1p.heap.erase a).find x).map _ = _
    rw [Heap.find_erase, if_neg hxa]
    by_cases hxp : some x = ea.prev_entry
    · obtain ⟨ex, hfx⟩ := represents_find hg.1 hx
      rw [hpconj x ex hxp.symm hfx, hfx]
      rfl
    · by_cases hxn : some x = ea.next_entry
      · obtain ⟨ex, hfx⟩ := represents_find hg.1 hx
        rw [hnconj x ex hxn.symm hfx, hfx]
        rfl
      · rw [hframe x hxa hxp hxn]

/-- A concrete three-entry list (entries 2, 1, 0 from head to tail),
built by three register calls. -/
def exampleState3 : JitState :=
  (register_jit_code 103 256
    (register_jit_code 102 128
      (register_jit_code 101 64 initialState).1).1).1

/-- Witness for C10: unregistering the middle of three entries leaves
the symbol-file fields of the other two untouched. -/
theorem C10_frame_witness :
    ∃ ea s',
      exampleState3.heap.find 1 = some ea ∧
      unregister_jit_code 1 exampleState3 = UnregResult.ok s' ∧
      (∀ x ∈ [2, 1, 0], x ≠ 1 →
        (s'.heap.find x).map (fun e => (e.symfile_addr, e.symfile_size)) =
          (exampleState3.heap.find x).map
            (fun e => (e.symfile_addr, e.symfile_size))) := by
  obtain ⟨h1, h2, h3, ea, s', h4, h5, h6, h7, h8, h9⟩ :=
    C10_frame 104 99 1 exampleState3 [2, 1, 0] (by decide) (by decide)
  exact ⟨ea, s', h4, h5, h9⟩

end GdbJit
